import Mathlib

/-!
# Verification of `zrhmn/argv`

A shallow embedding of `argv.go` (package `argv`, a GNU-style command-line
argument classifier) together with theorems about its behaviour.

Modelling conventions

* A Go `string` is a finite sequence of bytes: `GoString := List (Fin 256)`.
  Indexing `s[i]` is by byte, exactly as in Go.
* A Go run-time panic (index out of range) is modelled by `none` in `Option`.
* The receiver `*Argv` is mutated in place by the Go code; here every
  operation takes the record and returns the updated record.
* A Go slice argument that may be `nil` is an `Option (List _)`.
-/

namespace argv

/-! ## Data model -/

/-- One byte of a Go string. -/
abbrev Byte := Fin 256

/-- Go `string`: an immutable sequence of bytes. -/
abbrev GoString := List Byte

/-- Go `[2]string`, used by the source for an option:value pair. -/
abbrev Pair := GoString × GoString

/-- UTF-8 bytes of a string literal, as the Go compiler stores it. -/
def str (s : String) : GoString :=
  s.toUTF8.data.toList.map (fun b => b.val)

/-- The byte `'-'`. -/
def dash : Byte := 45

/-- The byte `'='`. -/
def equal : Byte := 61

/-- Go `type Argv struct { args []string; PosArgs []string; OptArgs [][2]string }`. -/
structure Argv where
  /-- unparsed args -/
  args : List GoString
  /-- parsed positional arguments -/
  PosArgs : List GoString
  /-- parsed option:value pairs -/
  OptArgs : List Pair
deriving DecidableEq, Repr

/-! ## Library functions used by the source -/

/-- Go `strings.IndexByte(s, c)`: index of the first instance of `c` in `s`,
or `-1` if `c` is not present. -/
def IndexByte : GoString → Byte → Int
  | [], _ => -1
  | b :: s, c =>
    if b = c then 0
    else if IndexByte s c < 0 then -1 else IndexByte s c + 1

/-- Go `strings.SplitN(s, sep, n)` for a one-byte separator and `n ≥ 0`:
at most `n` substrings, the last one being the unsplit remainder. -/
def SplitN (s : GoString) (sep : Byte) : Nat → List GoString
  | 0 => []
  | 1 => [s]
  | n + 2 =>
    if IndexByte s sep < 0 then [s]
    else s.take (IndexByte s sep).toNat ::
      SplitN (s.drop ((IndexByte s sep).toNat + 1)) sep (n + 1)

/-- Go index expression `s[i]` with a signed index; `none` is the
index-out-of-range panic. -/
def byteAt (s : GoString) (i : Int) : Option Byte :=
  if i < 0 then none else s[i.toNat]?

/-- Go slice expression `s[i:]`; `none` is the slice-bounds panic. -/
def sliceFrom (s : GoString) (i : Int) : Option GoString :=
  if i < 0 ∨ (s.length : Int) < i then none else some (s.drop i.toNat)

/-! ## The source functions -/

/-- Go `func New(args []string) *Argv`; `none` is the `nil` slice. -/
def New (args : Option (List GoString)) : Argv :=
  match args with
  | none => ⟨[], [], []⟩
  | some args => ⟨args, [], []⟩

/-- Go `func (g *Argv) next() (v string)`: slices off the first member of
`g.args` and returns it; returns `"--"` if `g.args` is empty. -/
def Argv.next (g : Argv) : GoString × Argv :=
  match g.args with
  | [] => (str "--", g)
  | v :: rest => (v, { g with args := rest })

/-- The inner loop of `parse`,
`for ; i < j-1; i++ { optb[1] = arg[i]; g.OptArgs = append(..., {string(optb[:]), ""}) }`.
The second argument is `i`, the third the number of iterations left. -/
def comboLoop (arg : GoString) : Int → Nat → List Pair → Option (List Pair)
  | _, 0, opts => some opts
  | i, n + 1, opts =>
    match byteAt arg i with
    | none => none
    | some c => comboLoop arg (i + 1) n (opts ++ [([dash, c], [])])

/-- The body of the `switch` in `parse` for one `arg`, acting on the local
variable `lastopt` and on the fields `g.PosArgs`, `g.OptArgs`. -/
def parseArg (arg lastopt : GoString) (pos : List GoString) (opts : List Pair) :
    Option (GoString × List GoString × List Pair) :=
  if arg.length = 0 then
    some (lastopt, pos, opts)
  else if byteAt arg 0 = some dash then
    -- last option is expecting value
    let flushed : GoString × List Pair :=
      if lastopt.length ≠ 0 then ([], opts ++ [(lastopt, [])]) else (lastopt, opts)
    if lastopt.length ≠ 0 ∧ arg.length = 1 then
      -- arg is "-", no need to parse further
      some (flushed.1, pos, flushed.2)
    else
      match byteAt arg 1 with
      | none => none
      | some b =>
        if b = dash then
          -- --option or --option=value
          match SplitN arg equal 2 with
          | [name, value] => some (flushed.1, pos, flushed.2 ++ [(name, value)])
          | _ => some (arg, pos, flushed.2)
        else
          -- -o or -o=val or -opqr=val
          let j : Int :=
            if IndexByte arg equal < 0 then (arg.length : Int) else IndexByte arg equal
          match comboLoop arg 1 (j - 1 - 1).toNat flushed.2 with
          | none => none
          | some opts1 =>
            match byteAt arg (j - 1) with
            | none => none
            | some c =>
              if j < (arg.length : Int) - 1 then
                match sliceFrom arg (j + 1) with
                | none => none
                | some value => some (flushed.1, pos, opts1 ++ [([dash, c], value)])
              else
                some ([dash, c], pos, opts1)
  else if lastopt.length ≠ 0 then
    -- arg is value for last option
    if lastopt = str "--" then
      some ([], pos ++ [arg], opts)
    else
      some ([], pos, opts ++ [(lastopt, arg)])
  else
    -- arg is a positional argument
    some (lastopt, pos ++ [arg], opts)

/-- The main loop of `parse`,
`for arg := g.next(); arg != "--"; arg = g.next() { switch ... }`,
by recursion on `g.args`.  The result is the final `lastopt` and `g`. -/
def parseLoop : List GoString → GoString → List GoString → List Pair →
    Option (GoString × Argv)
  | [], lastopt, pos, opts => some (lastopt, ⟨[], pos, opts⟩)
  | arg :: rest, lastopt, pos, opts =>
    if arg = str "--" then some (lastopt, ⟨rest, pos, opts⟩)
    else
      match parseArg arg lastopt pos opts with
      | none => none
      | some (lastopt1, pos1, opts1) => parseLoop rest lastopt1 pos1 opts1

/-- Go `func (g *Argv) parse()`. -/
def Argv.parse (g : Argv) : Option Argv :=
  match parseLoop g.args [] g.PosArgs g.OptArgs with
  | none => none
  | some (lastopt, g1) =>
    -- last --option not stored yet
    if lastopt.length ≠ 0 then
      some { g1 with OptArgs := g1.OptArgs ++ [(lastopt, [])] }
    else
      some g1

/-- Go `func (g *Argv) Parse() *Argv`. -/
def Argv.Parse (g : Argv) : Option Argv :=
  g.parse


/-! ## Auxiliary notions used to state the properties -/

/-- The token starts with the byte `'-'`. -/
def startsWithDash (t : GoString) : Prop := t.head? = some dash

instance (t : GoString) : Decidable (startsWithDash t) := by
  unfold startsWithDash; infer_instance

/-- Projection of a parse result on the two output sequences. -/
def outputs (r : Option Argv) : Option (List GoString × List Pair) :=
  r.map (fun g => (g.PosArgs, g.OptArgs))

/-- The step at the end of `parse`: `if len(lastopt) != 0 { append (lastopt, "") }`. -/
def finish (r : GoString × Argv) : Argv :=
  if r.1.length ≠ 0 then { r.2 with OptArgs := r.2.OptArgs ++ [(r.1, [])] } else r.2

/-- Result of `parse` started in an arbitrary loop state. -/
def run (xs : List GoString) (lastopt : GoString) (pos : List GoString) (opts : List Pair) :
    Option Argv :=
  (parseLoop xs lastopt pos opts).map finish

/-- Prepends already-produced outputs to a result. -/
def prepend (p0 : List GoString) (o0 : List Pair) (g : Argv) : Argv :=
  ⟨g.args, p0 ++ g.PosArgs, o0 ++ g.OptArgs⟩

/-- Option pairs after the flush `if len(lastopt) != 0 { append (lastopt, "") }`. -/
def flushOpts (l : GoString) (o : List Pair) : List Pair :=
  if l.length ≠ 0 then o ++ [(l, [])] else o

/-- Option pairs of the flags of a combo that are expanded by the inner loop. -/
def flags (cs : GoString) : List Pair := cs.map (fun c => ([dash, c], []))

/-- Option token whose option is left pending by `parse`: a long option
without `=` other than `"--"`, or a short option `-c` with `c` neither `-`
nor `=`. -/
def PendingCapable (a : GoString) : Prop :=
  (str "--" <+: a ∧ a ≠ str "--" ∧ equal ∉ a) ∨
    ∃ c : Byte, a = [dash, c] ∧ c ≠ dash ∧ c ≠ equal

/-- The separate tokens `-c1`, `-c2`, .., `-c(n-1)`, `-cn ++ s` that the combo
token `-c1c2..cn ++ s` is said to stand for. -/
def separate : GoString → GoString → List GoString
  | [], _ => []
  | [c], s => [[dash, c] ++ s]
  | c :: c2 :: cs, s => [dash, c] :: separate (c2 :: cs) s

/-- Shape of an option name as C11 states it: exactly two bytes `-c`, or
starting with `--` and containing no `=`. -/
def WellFormedName (n : GoString) : Prop :=
  (∃ c : Byte, n = [dash, c]) ∨ (str "--" <+: n ∧ equal ∉ n)

/-! ## Basic lemmas -/

theorem str_dashdash : str "--" = [dash, dash] := by decide

theorem str_dash : str "-" = [dash] := by decide

theorem str_empty : str "" = [] := by decide

theorem Parse_eq_run (xs : List GoString) :
    (New (some xs)).Parse = run xs [] [] [] := by
  simp only [Argv.Parse, Argv.parse, New, run]
  cases h : parseLoop xs [] [] [] with
  | none => rfl
  | some r =>
    obtain ⟨l, g⟩ := r
    simp only [Option.map_some', finish]
    split <;> rfl

/-- One turn of the loop of `parse` in terms of `next`: the loop ends when
`next` returns `"--"`, otherwise the `switch` body runs on the token and the
loop continues on the shortened `g.args`. -/
theorem parseLoop_next (g : Argv) (l : GoString) :
    parseLoop g.args l g.PosArgs g.OptArgs =
      if g.next.1 = str "--" then some (l, g.next.2)
      else match parseArg g.next.1 l g.PosArgs g.OptArgs with
        | none => none
        | some (l1, p1, o1) => parseLoop g.next.2.args l1 p1 o1 := by
  obtain ⟨args, pos, opts⟩ := g
  cases args with
  | nil => simp [parseLoop, Argv.next]
  | cons v rest => simp [parseLoop, Argv.next]

theorem comboLoop_frame (arg : GoString) (o0 : List Pair) :
    ∀ (n : Nat) (i : Int) (o : List Pair),
      comboLoop arg i n (o0 ++ o) = (comboLoop arg i n o).map (fun r => o0 ++ r) := by
  intro n
  induction n with
  | zero => intro i o; simp [comboLoop]
  | succ n ih =>
    intro i o
    simp only [comboLoop]
    cases byteAt arg i with
    | none => rfl
    | some c =>
      simp only
      rw [List.append_assoc, ih]

theorem parseArg_frame (arg l : GoString) (p0 p : List GoString) (o0 o : List Pair) :
    parseArg arg l (p0 ++ p) (o0 ++ o) =
      (parseArg arg l p o).map (fun r => (r.1, p0 ++ r.2.1, o0 ++ r.2.2)) := by
  unfold parseArg
  by_cases ha : arg.length = 0
  · simp [ha]
  by_cases hd : byteAt arg 0 = some dash
  · simp only [ha, hd, if_true, if_false]
    have key : ∀ (l1 : GoString) (o1 : List Pair),
        (match byteAt arg 1 with
          | none => none
          | some b =>
            if b = dash then
              match SplitN arg equal 2 with
              | [name, value] => some (l1, p0 ++ p, (o0 ++ o1) ++ [(name, value)])
              | _ => some (arg, p0 ++ p, o0 ++ o1)
            else
              let j : Int :=
                if IndexByte arg equal < 0 then (arg.length : Int) else IndexByte arg equal
              match comboLoop arg 1 (j - 1 - 1).toNat (o0 ++ o1) with
              | none => none
              | some opts1 =>
                match byteAt arg (j - 1) with
                | none => none
                | some c =>
                  if j < (arg.length : Int) - 1 then
                    match sliceFrom arg (j + 1) with
                    | none => none
                    | some value => some (l1, p0 ++ p, opts1 ++ [([dash, c], value)])
                  else
                    some ([dash, c], p0 ++ p, opts1)) =
        Option.map (fun r : GoString × List GoString × List Pair => (r.1, p0 ++ r.2.1, o0 ++ r.2.2))
        (match byteAt arg 1 with
          | none => none
          | some b =>
            if b = dash then
              match SplitN arg equal 2 with
              | [name, value] => some (l1, p, o1 ++ [(name, value)])
              | _ => some (arg, p, o1)
            else
              let j : Int :=
                if IndexByte arg equal < 0 then (arg.length : Int) else IndexByte arg equal
              match comboLoop arg 1 (j - 1 - 1).toNat o1 with
              | none => none
              | some opts1 =>
                match byteAt arg (j - 1) with
                | none => none
                | some c =>
                  if j < (arg.length : Int) - 1 then
                    match sliceFrom arg (j + 1) with
                    | none => none
                    | some value => some (l1, p, opts1 ++ [([dash, c], value)])
                  else
                    some ([dash, c], p, opts1)) := by
      intro l1 o1
      cases byteAt arg 1 with
      | none => rfl
      | some b =>
        simp only
        by_cases hb : b = dash
        · simp only [hb, if_true]
          split <;> simp
        · simp only [hb, if_false]
          generalize (if IndexByte arg equal < 0 then (arg.length : Int)
            else IndexByte arg equal) = j
          rw [comboLoop_frame]
          cases comboLoop arg 1 (j - 1 - 1).toNat o1 with
          | none => rfl
          | some opts1 =>
            simp only [Option.map_some']
            cases byteAt arg (j - 1) with
            | none => rfl
            | some c =>
              simp only
              by_cases hlt : j < (arg.length : Int) - 1
              · simp only [hlt, if_true]
                cases sliceFrom arg (j + 1) with
                | none => rfl
                | some v => simp
              · simp [hlt]
    by_cases hl : l.length = 0
    · simp only [hl, ne_eq, not_true_eq_false, if_false, false_and]
      exact key l o
    · simp only [hl, ne_eq, not_false_eq_true, if_true, true_and]
      by_cases h1 : arg.length = 1
      · simp [h1]
      · simp only [h1, if_false]
        have h := key [] (o ++ [(l, [])])
        simp only [List.append_assoc] at h ⊢
        exact h
  · simp only [ha, hd, if_false]
    split
    · split <;> simp
    · simp

theorem parseLoop_frame (p0 : List GoString) (o0 : List Pair) :
    ∀ (xs : List GoString) (l : GoString) (p : List GoString) (o : List Pair),
      parseLoop xs l (p0 ++ p) (o0 ++ o) =
        (parseLoop xs l p o).map (fun r => (r.1, prepend p0 o0 r.2)) := by
  intro xs
  induction xs with
  | nil => intro l p o; simp [parseLoop, prepend]
  | cons arg rest ih =>
    intro l p o
    simp only [parseLoop]
    by_cases h : arg = str "--"
    · simp [h, prepend]
    · simp only [h, if_false]
      rw [parseArg_frame]
      cases parseArg arg l p o with
      | none => rfl
      | some r =>
        obtain ⟨l1, p1, o1⟩ := r
        simp only [Option.map_some']
        exact ih l1 p1 o1

theorem finish_prepend (p0 : List GoString) (o0 : List Pair) (r : GoString × Argv) :
    finish (r.1, prepend p0 o0 r.2) = prepend p0 o0 (finish r) := by
  unfold finish prepend
  by_cases h : r.1.length = 0 <;> simp [h]

theorem run_frame (p0 : List GoString) (o0 : List Pair) (xs : List GoString)
    (l : GoString) (p : List GoString) (o : List Pair) :
    run xs l (p0 ++ p) (o0 ++ o) = (run xs l p o).map (prepend p0 o0) := by
  unfold run
  rw [parseLoop_frame]
  cases parseLoop xs l p o with
  | none => rfl
  | some r => simp only [Option.map_some']; rw [finish_prepend]

/-- Outputs already produced in front of an idle loop state carry over to
the final result. -/
theorem run_idle (xs : List GoString) (p0 : List GoString) (o0 : List Pair) :
    run xs [] p0 o0 = ((New (some xs)).Parse).map (prepend p0 o0) := by
  have h := run_frame p0 o0 xs [] [] []
  simp only [List.append_nil] at h
  rw [h, Parse_eq_run]

theorem run_cons (arg : GoString) (rest : List GoString) (l : GoString)
    (p : List GoString) (o : List Pair) (h : arg ≠ str "--")
    (l1 : GoString) (p1 : List GoString) (o1 : List Pair)
    (hs : parseArg arg l p o = some (l1, p1, o1)) :
    run (arg :: rest) l p o = run rest l1 p1 o1 := by
  simp [run, parseLoop, h, hs]

/-! ## Library-function lemmas -/

theorem IndexByte_of_not_mem (c : Byte) :
    ∀ s : GoString, c ∉ s → IndexByte s c = -1 := by
  intro s
  induction s with
  | nil => intro _; rfl
  | cons b s ih =>
    intro h
    have hb : b ≠ c := fun e => h (by simp [e])
    have hs : c ∉ s := fun e => h (by simp [e])
    simp [IndexByte, hb, ih hs]

theorem IndexByte_append (c : Byte) (post : GoString) :
    ∀ pre : GoString, c ∉ pre → IndexByte (pre ++ c :: post) c = pre.length := by
  intro pre
  induction pre with
  | nil => intro _; simp [IndexByte]
  | cons b s ih =>
    intro h
    have hb : b ≠ c := fun e => h (by simp [e])
    have hs : c ∉ s := fun e => h (by simp [e])
    have hn : ¬ ((s.length : Int) < 0) := by omega
    simp [IndexByte, hb, ih hs, hn]

theorem SplitN_two_of_not_mem (s : GoString) (c : Byte) (h : c ∉ s) :
    SplitN s c 2 = [s] := by
  simp [SplitN, IndexByte_of_not_mem c s h]

theorem SplitN_two_append (pre post : GoString) (c : Byte) (h : c ∉ pre) :
    SplitN (pre ++ c :: post) c 2 = [pre, post] := by
  have hn : ¬ ((pre.length : Int) < 0) := by omega
  simp [SplitN, IndexByte_append c post pre h, hn]

theorem getElem?_length_append (a b : GoString) (c : Byte) :
    (a ++ c :: b)[a.length]? = some c := by
  rw [List.getElem?_append_right (Nat.le_refl _)]
  simp

theorem byteAt_nat (s : GoString) (n : Nat) : byteAt s (n : Int) = s[n]? := by
  simp [byteAt]

theorem comboLoop_mid (post : GoString) :
    ∀ (mid pre : GoString) (o : List Pair),
      comboLoop (pre ++ mid ++ post) (pre.length : Int) mid.length o =
        some (o ++ mid.map (fun c => ([dash, c], []))) := by
  intro mid
  induction mid with
  | nil => intro pre o; simp [comboLoop]
  | cons c m ih =>
    intro pre o
    have hget : byteAt (pre ++ c :: m ++ post) (pre.length : Int) = some c := by
      rw [byteAt_nat, List.append_assoc, List.getElem?_append_right (Nat.le_refl _)]
      simp
    have hre : pre ++ c :: m ++ post = (pre ++ [c]) ++ m ++ post := by simp
    have hlen : ((pre.length : Int) + 1) = ((pre ++ [c]).length : Int) := by simp
    simp only [List.length_cons, comboLoop, hget]
    rw [hre, hlen, ih (pre ++ [c]) (o ++ [([dash, c], [])])]
    simp

/-! ## The `switch` body on tokens of a known shape -/

theorem flushOpts_nil (o : List Pair) : flushOpts [] o = o := rfl

theorem flushOpts_cons (b : Byte) (l : GoString) (o : List Pair) :
    flushOpts (b :: l) o = o ++ [(b :: l, [])] := rfl

theorem parseArg_empty (l : GoString) (p : List GoString) (o : List Pair) :
    parseArg [] l p o = some (l, p, o) := rfl

theorem parseArg_lone_dash (l : GoString) (p : List GoString) (o : List Pair)
    (hl : l ≠ []) : parseArg [dash] l p o = some ([], p, o ++ [(l, [])]) := by
  have h : l.length ≠ 0 := by simpa using hl
  simp [parseArg, byteAt, h]

theorem parseArg_lone_dash_idle (p : List GoString) (o : List Pair) :
    parseArg [dash] [] p o = none := by
  simp [parseArg, byteAt]

theorem parseArg_positional (v : GoString) (p : List GoString) (o : List Pair)
    (hv : ¬ startsWithDash v) : v ≠ [] → parseArg v [] p o = some ([], p ++ [v], o) := by
  intro hne
  cases v with
  | nil => exact absurd rfl hne
  | cons b r =>
    have hb : b ≠ dash := by
      intro e; apply hv; simp [startsWithDash, e]
    simp [parseArg, byteAt, hb]

theorem parseArg_value (v l : GoString) (p : List GoString) (o : List Pair)
    (hv : ¬ startsWithDash v) (hne : v ≠ []) (hl : l ≠ []) (hl2 : l ≠ str "--") :
    parseArg v l p o = some ([], p, o ++ [(l, v)]) := by
  cases v with
  | nil => exact absurd rfl hne
  | cons b r =>
    have hb : b ≠ dash := by
      intro e; apply hv; simp [startsWithDash, e]
    have h : l.length ≠ 0 := by simpa using hl
    simp [parseArg, byteAt, hb, h, hl2]

/-- With an option pending, a token `-x...` of length at least two is
processed as with no option pending, after the pending one is flushed. -/
theorem parseArg_flush (b : Byte) (r l : GoString) (p : List GoString) (o : List Pair) :
    parseArg (dash :: b :: r) l p o = parseArg (dash :: b :: r) [] p (flushOpts l o) := by
  cases l with
  | nil => rfl
  | cons c l => simp [parseArg, byteAt, flushOpts]

theorem parseArg_long (r : GoString) (p : List GoString) (o : List Pair)
    (h : equal ∉ r) :
    parseArg (dash :: dash :: r) [] p o = some (dash :: dash :: r, p, o) := by
  have hm : equal ∉ dash :: dash :: r := by
    simp only [List.mem_cons, not_or]
    exact ⟨by decide, by decide, h⟩
  simp [parseArg, byteAt, SplitN_two_of_not_mem _ _ hm]

theorem parseArg_long_eq (n value : GoString) (p : List GoString) (o : List Pair)
    (h : equal ∉ n) :
    parseArg (dash :: dash :: n ++ equal :: value) [] p o =
      some ([], p, o ++ [(dash :: dash :: n, value)]) := by
  have hm : equal ∉ dash :: dash :: n := by
    simp only [List.mem_cons, not_or]
    exact ⟨by decide, by decide, h⟩
  have hs := SplitN_two_append (dash :: dash :: n) value equal hm
  simp only [List.cons_append] at hs
  simp [parseArg, byteAt, hs]

theorem parseArg_short_core (init : GoString) (cn : Byte) (s : GoString)
    (p : List GoString) (o : List Pair)
    (hd : (init ++ [cn]).head? ≠ some dash)
    (hj : (if IndexByte (dash :: (init ++ [cn]) ++ s) equal < 0
            then ((dash :: (init ++ [cn]) ++ s).length : Int)
            else IndexByte (dash :: (init ++ [cn]) ++ s) equal) = (init.length : Int) + 2) :
    parseArg (dash :: (init ++ [cn]) ++ s) [] p o =
      if 2 ≤ s.length then some ([], p, o ++ flags init ++ [([dash, cn], s.drop 1)])
      else some ([dash, cn], p, o ++ flags init) := by
  have hb : ∃ b r, init ++ [cn] = b :: r ∧ b ≠ dash := by
    cases init with
    | nil => exact ⟨cn, [], rfl, by simpa using hd⟩
    | cons b r => exact ⟨b, r ++ [cn], rfl, by simpa using hd⟩
  obtain ⟨b, r, hbr, hbd⟩ := hb
  have h1 : byteAt (dash :: (init ++ [cn]) ++ s) 1 = some b := by
    rw [hbr]; simp [byteAt]
  have hloop := comboLoop_mid ([cn] ++ s) init [dash] o
  have harg : [dash] ++ init ++ ([cn] ++ s) = dash :: (init ++ [cn]) ++ s := by simp
  rw [harg] at hloop
  simp only [List.length_singleton, Nat.cast_one] at hloop
  have hcn : byteAt (dash :: (init ++ [cn]) ++ s) ((init.length : Int) + 2 - 1) = some cn := by
    have e : ((init.length : Int) + 2 - 1) = ((init.length + 1 : Nat) : Int) := by omega
    rw [e, byteAt_nat]
    have e2 : dash :: (init ++ [cn]) ++ s = (dash :: init) ++ cn :: s := by simp
    have e3 : init.length + 1 = (dash :: init).length := rfl
    rw [e2, e3, getElem?_length_append]
  have hslice : sliceFrom (dash :: (init ++ [cn]) ++ s) ((init.length : Int) + 2 + 1) =
      if 1 ≤ s.length then some (s.drop 1) else none := by
    have e : ((init.length : Int) + 2 + 1).toNat = (dash :: (init ++ [cn])).length + 1 := by
      simp only [List.length_cons, List.length_append, List.length_nil]; omega
    have hn : ¬ ((init.length : Int) + 2 + 1 < 0) := by omega
    unfold sliceFrom
    rw [e, ← List.drop_drop, List.drop_left]
    simp only [hn, false_or, List.length_append, List.length_cons, List.length_nil]
    by_cases hs : 1 ≤ s.length
    · rw [if_pos hs, if_neg]
      push_cast; omega
    · rw [if_neg hs, if_pos]
      push_cast; omega
  have hlen : ((dash :: (init ++ [cn]) ++ s).length : Int) = (init.length : Int) + 2 + s.length := by
    simp; omega
  have hcnt : ((init.length : Int) + 2 - 1 - 1).toNat = init.length := by omega
  have h0 : byteAt (dash :: (init ++ [cn]) ++ s) 0 = some dash := by simp [byteAt]
  have hne : (dash :: (init ++ [cn]) ++ s).length ≠ 0 := by simp
  unfold parseArg
  simp only [hne, if_false, h0, if_true, List.length_nil, ne_eq, not_true_eq_false, false_and,
    h1, hbd, hj, hcnt]
  rw [hloop, hcn]
  simp only [hslice, hlen, flags]
  by_cases hs : 2 ≤ s.length
  · have h1s : 1 ≤ s.length := by omega
    have hlt : (init.length : Int) + 2 < (init.length : Int) + 2 + s.length - 1 := by omega
    simp [hs, h1s, hlt]
  · have hlt : ¬ ((init.length : Int) + 2 < (init.length : Int) + 2 + s.length - 1) := by omega
    simp [hs, hlt]

theorem parseArg_short (init : GoString) (cn : Byte) (s l : GoString)
    (p : List GoString) (o : List Pair)
    (hcs : ∀ c ∈ init ++ [cn], c ≠ dash ∧ c ≠ equal)
    (hs : s = [] ∨ ∃ v, s = equal :: v) :
    parseArg (dash :: (init ++ [cn]) ++ s) l p o =
      if 2 ≤ s.length then
        some ([], p, flushOpts l o ++ flags init ++ [([dash, cn], s.drop 1)])
      else some ([dash, cn], p, flushOpts l o ++ flags init) := by
  have hd : (init ++ [cn]).head? ≠ some dash := by
    cases init with
    | nil =>
      have := (hcs cn (by simp)).1
      simpa using this
    | cons b r =>
      have := (hcs b (by simp)).1
      simpa using this
  have hmem : equal ∉ dash :: (init ++ [cn]) := by
    intro hm
    rcases List.mem_cons.1 hm with h | h
    · exact absurd h (by decide)
    · exact (hcs equal h).2 rfl
  have hj : (if IndexByte (dash :: (init ++ [cn]) ++ s) equal < 0
            then ((dash :: (init ++ [cn]) ++ s).length : Int)
            else IndexByte (dash :: (init ++ [cn]) ++ s) equal) = (init.length : Int) + 2 := by
    rcases hs with hs | ⟨v, hs⟩
    · subst hs
      rw [List.append_nil, IndexByte_of_not_mem equal _ hmem]
      simp
      omega
    · subst hs
      rw [IndexByte_append equal v _ hmem]
      have hn : ¬ (((dash :: (init ++ [cn])).length : Int) < 0) := by omega
      rw [if_neg hn]
      simp
      omega
  have hform : ∃ b r, dash :: (init ++ [cn]) ++ s = dash :: b :: r := by
    cases init with
    | nil => exact ⟨cn, s, rfl⟩
    | cons b r => exact ⟨b, r ++ [cn] ++ s, by simp⟩
  obtain ⟨b, r, hbr⟩ := hform
  have hflush : parseArg (dash :: (init ++ [cn]) ++ s) l p o =
      parseArg (dash :: (init ++ [cn]) ++ s) [] p (flushOpts l o) := by
    rw [hbr]; exact parseArg_flush b r l p o
  rw [hflush]
  exact parseArg_short_core init cn s p (flushOpts l o) hd hj

theorem PendingCapable.ne_nil {a : GoString} (h : PendingCapable a) : a ≠ [] := by
  rcases h with ⟨h1, _, _⟩ | ⟨c, hc, _, _⟩
  · intro e; subst e
    rw [str_dashdash] at h1
    simp at h1
  · rw [hc]; simp

theorem PendingCapable.ne_terminator {a : GoString} (h : PendingCapable a) :
    a ≠ str "--" := by
  rcases h with ⟨_, h2, _⟩ | ⟨c, hc, hd, _⟩
  · exact h2
  · rw [hc, str_dashdash]
    intro e
    apply hd
    simpa using e

theorem PendingCapable.parseArg {a : GoString} (h : PendingCapable a)
    (p : List GoString) (o : List Pair) : parseArg a [] p o = some (a, p, o) := by
  rcases h with ⟨h1, _, h3⟩ | ⟨c, hc, hd, he⟩
  · rw [str_dashdash] at h1
    obtain ⟨r, hr⟩ := h1
    subst hr
    have : equal ∉ r := fun hm => h3 (by simp [hm])
    exact parseArg_long r p o this
  · subst hc
    have hcs : ∀ x ∈ ([] : GoString) ++ [c], x ≠ dash ∧ x ≠ equal := by
      intro x hx
      simp only [List.nil_append, List.mem_singleton] at hx
      subst hx
      exact ⟨hd, he⟩
    have := parseArg_short [] c [] [] p o hcs (Or.inl rfl)
    simpa [flushOpts, flags] using this

/-- After a pending-capable token the loop holds that token as `lastopt`. -/
theorem run_pending {a : GoString} (h : PendingCapable a) (rest : List GoString)
    (p : List GoString) (o : List Pair) :
    run (a :: rest) [] p o = run rest a p o :=
  run_cons a rest [] p o h.ne_terminator a p o (h.parseArg p o)

theorem outputs_map_prepend (p0 : List GoString) (o0 : List Pair) (r : Option Argv) :
    outputs (r.map (prepend p0 o0)) = (outputs r).map (fun x => (p0 ++ x.1, o0 ++ x.2)) := by
  cases r <;> simp [outputs, prepend]

/-- If the loop on `xs` reaches the idle state with outputs `p0`, `o0` and
remaining input `rest`, the outputs of `xs` are `p0`, `o0` followed by
those of `rest`. -/
theorem outputs_of_run (xs rest : List GoString) (p0 : List GoString) (o0 : List Pair)
    (h : run xs [] [] [] = run rest [] p0 o0) (p : List GoString) (o : List Pair)
    (hr : outputs (New (some rest)).Parse = some (p, o)) :
    outputs (New (some xs)).Parse = some (p0 ++ p, o0 ++ o) := by
  rw [Parse_eq_run, h, run_idle, outputs_map_prepend, hr]
  rfl

/-- Checks by evaluation that no byte of `cs` is `-` or `=`. -/
theorem no_dash_equal_of_all (cs : GoString)
    (h : cs.all (fun c => decide (c ≠ dash ∧ c ≠ equal)) = true) :
    ∀ c ∈ cs, c ≠ dash ∧ c ≠ equal := by
  intro c hc
  have := List.all_eq_true.1 h c hc
  simpa using this

theorem outputs_finish_args (l : GoString) (a1 a2 p : List GoString) (o : List Pair) :
    outputs (some (finish (l, ⟨a1, p, o⟩))) = outputs (some (finish (l, ⟨a2, p, o⟩))) := by
  unfold finish outputs
  by_cases h : l.length = 0 <;> simp [h]

/-! ## Claims -/

/-- C1 (totality) fails on the code: on the one-token input `["-"]` no option
is pending, so `parse` skips the `len(arg) == 1` guard and evaluates `arg[1]`
on a string of length one, which is an index-out-of-range panic.  The same
token is handled when an option is pending (`["--with", "-"]`). -/
theorem C1_lone_dash_panics :
    (New (some [str "-"])).Parse = none ∧
      (New (some [str "--with", str "-"])).Parse =
        some ⟨[], [], [(str "--with", [])]⟩ := by
  decide

/-- C2 as stated fails: the empty token does not start with `-`, yet it is
skipped, so on input `[""]` the positional sequence is empty and not equal to
the input. -/
theorem C2_counterexample :
    ¬ startsWithDash (str "") ∧
      outputs (New (some [str ""])).Parse = some ([], []) ∧
      outputs (New (some [str ""])).Parse ≠ some ([str ""], []) := by
  decide

theorem run_positional_only :
    ∀ (xs : List GoString) (p : List GoString), (∀ t ∈ xs, ¬ startsWithDash t) →
      run xs [] p [] = some ⟨[], p ++ xs.filter (fun t => t ≠ []), []⟩ := by
  intro xs
  induction xs with
  | nil => intro p _; simp [run, parseLoop, finish]
  | cons t rest ih =>
    intro p h
    have ht : ¬ startsWithDash t := h t (by simp)
    have hrest : ∀ u ∈ rest, ¬ startsWithDash u := fun u hu => h u (by simp [hu])
    have hterm : t ≠ str "--" := by
      intro e; apply ht; rw [e]; decide
    by_cases hne : t = []
    · subst hne
      rw [run_cons [] rest [] p [] hterm [] p [] (parseArg_empty [] p []), ih p hrest]
      simp
    · rw [run_cons t rest [] p [] hterm [] (p ++ [t]) [] (parseArg_positional t p [] ht hne),
        ih (p ++ [t]) hrest]
      simp [hne]

/-- C2 (amended): if no input token starts with `-`, Parse succeeds, PosArgs
is the input sequence with the empty tokens removed, in the original order,
and OptArgs is empty. -/
theorem C2_positional_only (xs : List GoString)
    (h : ∀ t ∈ xs, ¬ startsWithDash t) :
    outputs (New (some xs)).Parse = some (xs.filter (fun t => t ≠ []), []) := by
  rw [Parse_eq_run, run_positional_only xs [] h]
  rfl

/-- Instance of C2 on the test-suite input `pos args only` with an empty token added. -/
theorem C2_positional_only_witness :
    outputs (New (some [str "pos", str "", str "args", str "only"])).Parse =
      some ([str "pos", str "args", str "only"], []) :=
  C2_positional_only [str "pos", str "", str "args", str "only"] (by decide)

/-- C3: a pending option takes the next token as its value.  For a
pending-capable option token `a` and a non-empty token `v` not starting with
`-`, if parsing `rest` yields `(p, o)` then parsing `a :: v :: rest` yields
positionals `p` and option pairs `(a, v) :: o`. -/
theorem C3_pending_takes_value (a v : GoString) (rest : List GoString)
    (p : List GoString) (o : List Pair)
    (ha : PendingCapable a) (hv : v ≠ []) (hd : ¬ startsWithDash v)
    (hr : outputs (New (some rest)).Parse = some (p, o)) :
    outputs (New (some (a :: v :: rest))).Parse = some (p, (a, v) :: o) := by
  have hterm : v ≠ str "--" := by
    intro e; apply hd; rw [e]; decide
  have hstep : run (a :: v :: rest) [] [] [] = run rest [] [] [(a, v)] := by
    rw [run_pending ha,
      run_cons v rest a [] [] hterm [] [] [(a, v)]
        (parseArg_value v a [] [] hd hv ha.ne_nil ha.ne_terminator)]
  exact outputs_of_run _ rest [] [(a, v)] hstep p o hr

/-- Instance of C3 on `--opt ions rest`. -/
theorem C3_pending_takes_value_witness :
    outputs (New (some [str "--opt", str "ions", str "rest"])).Parse =
      some ([str "rest"], [(str "--opt", str "ions")]) :=
  C3_pending_takes_value (str "--opt") (str "ions") [str "rest"] [str "rest"] []
    (Or.inl ⟨by decide, by decide, by decide⟩) (by decide) (by decide) (by decide)

theorem run_single_pending {a : GoString} (h : PendingCapable a) :
    run [a] [] [] [] = some ⟨[], [], [(a, [])]⟩ := by
  have hl : a.length ≠ 0 := by simpa using h.ne_nil
  rw [run_pending h]
  simp [run, parseLoop, finish, hl]

/-- A token `-x...` of length at least two met with an option pending
flushes that option first, also when the token is the terminator. -/
theorem run_flush (b : Byte) (r : GoString) (rest : List GoString) (l : GoString)
    (hl : l ≠ []) (p : List GoString) (o : List Pair) :
    run ((dash :: b :: r) :: rest) l p o =
      run ((dash :: b :: r) :: rest) [] p (o ++ [(l, [])]) := by
  have hlen : l.length ≠ 0 := by simpa using hl
  have hf : flushOpts l o = o ++ [(l, [])] := by simp [flushOpts, hlen]
  unfold run
  simp only [parseLoop]
  by_cases ht : dash :: b :: r = str "--"
  · simp [ht, finish, hlen]
  · simp only [ht, if_false]
    rw [parseArg_flush, hf]

/-- C4: bare-flag rule.  For a pending-capable option token `a`: parsing
`[a]` yields no positionals and exactly the pair `(a, "")`; and if `a` is
followed by a token `b` that starts with `-` and has length at least two,
then whenever parsing `b :: rest` yields `(p, o)`, parsing `a :: b :: rest`
yields positionals `p` and pairs `(a, "") :: o`. -/
theorem C4_bare_flag (a : GoString) (ha : PendingCapable a) :
    outputs (New (some [a])).Parse = some ([], [(a, [])]) ∧
      ∀ (b : GoString) (rest : List GoString) (p : List GoString) (o : List Pair),
        startsWithDash b → 2 ≤ b.length →
        outputs (New (some (b :: rest))).Parse = some (p, o) →
        outputs (New (some (a :: b :: rest))).Parse = some (p, (a, []) :: o) := by
  constructor
  · rw [Parse_eq_run, run_single_pending ha]
    rfl
  · intro b rest p o hb hlen hr
    obtain ⟨c, r, hbr⟩ : ∃ c r, b = dash :: c :: r := by
      match b, hb, hlen with
      | x :: y :: r, hb, _ =>
        refine ⟨y, r, ?_⟩
        have : x = dash := by simpa [startsWithDash] using hb
        rw [this]
    subst hbr
    have hstep : run (a :: (dash :: c :: r) :: rest) [] [] [] =
        run ((dash :: c :: r) :: rest) [] [] [(a, [])] := by
      rw [run_pending ha, run_flush c r rest a ha.ne_nil]
      rfl
    exact outputs_of_run _ _ [] [(a, [])] hstep p o hr

/-- Instance of C4 on the test-suite input `--options -a -n d`. -/
theorem C4_bare_flag_witness :
    outputs (New (some [str "--options"])).Parse = some ([], [(str "--options", [])]) ∧
      outputs (New (some [str "--options", str "-a", str "-n", str "d"])).Parse =
        some ([], [(str "--options", []), (str "-a", []), (str "-n", str "d")]) :=
  ⟨(C4_bare_flag (str "--options") (Or.inl ⟨by decide, by decide, by decide⟩)).1,
    (C4_bare_flag (str "--options") (Or.inl ⟨by decide, by decide, by decide⟩)).2
      (str "-a") [str "-n", str "d"] [] [(str "-a", []), (str "-n", str "d")]
      (by decide) (by decide) (by decide)⟩

theorem run_cons_bind (arg : GoString) (rest : List GoString) (l : GoString)
    (p : List GoString) (o : List Pair) (h : arg ≠ str "--") :
    run (arg :: rest) l p o =
      (parseArg arg l p o).bind (fun r => run rest r.1 r.2.1 r.2.2) := by
  simp only [run, parseLoop, h, if_false]
  cases parseArg arg l p o with
  | none => rfl
  | some r => rfl

theorem short_ne_terminator (c : Byte) (r : GoString) (hc : c ≠ dash) :
    dash :: c :: r ≠ str "--" := by
  rw [str_dashdash]
  intro e
  apply hc
  simpa using (List.cons.inj (List.cons.inj e).2).1

/-- Moving the first flag of a combo into the pending slot leaves the effect
of the token unchanged. -/
theorem parseArg_combo_cons (c c2 : Byte) (cs s l : GoString)
    (p : List GoString) (o : List Pair)
    (hcs : ∀ x ∈ c :: c2 :: cs, x ≠ dash ∧ x ≠ equal)
    (hs : s = [] ∨ ∃ v, s = equal :: v) :
    parseArg (dash :: (c :: c2 :: cs) ++ s) l p o =
      parseArg (dash :: (c2 :: cs) ++ s) [dash, c] p (flushOpts l o) := by
  have hne : c2 :: cs ≠ [] := by simp
  have hsplit : c2 :: cs = (c2 :: cs).dropLast ++ [(c2 :: cs).getLast hne] :=
    (List.dropLast_append_getLast hne).symm
  generalize (c2 :: cs).dropLast = init at hsplit
  generalize (c2 :: cs).getLast hne = cn at hsplit
  rw [hsplit] at hcs ⊢
  have h1 : ∀ x ∈ (c :: init) ++ [cn], x ≠ dash ∧ x ≠ equal := by
    intro x hx; exact hcs x (by simpa using hx)
  have h2 : ∀ x ∈ init ++ [cn], x ≠ dash ∧ x ≠ equal := by
    intro x hx; exact hcs x (List.mem_cons_of_mem c hx)
  have e1 : parseArg (dash :: c :: (init ++ [cn]) ++ s) l p o = _ :=
    parseArg_short (c :: init) cn s l p o h1 hs
  have e2 := parseArg_short init cn s [dash, c] p (flushOpts l o) h2 hs
  rw [e1, e2]
  simp [flushOpts_cons, flags]

theorem run_combo (s : GoString) (rest : List GoString)
    (hs : s = [] ∨ ∃ v, s = equal :: v) :
    ∀ cs : GoString, cs ≠ [] → (∀ c ∈ cs, c ≠ dash ∧ c ≠ equal) →
      ∀ (l : GoString) (p : List GoString) (o : List Pair),
        run ((dash :: cs ++ s) :: rest) l p o = run (separate cs s ++ rest) l p o := by
  intro cs
  induction cs with
  | nil => intro h; exact absurd rfl h
  | cons c cs ih =>
    intro _ hcs l p o
    cases cs with
    | nil => simp [separate]
    | cons c2 cs2 =>
      have hc : c ≠ dash ∧ c ≠ equal := hcs c (by simp)
      have hc2 : c2 ≠ dash := (hcs c2 (by simp)).1
      have ih1 := ih (by simp) (fun x hx => hcs x (List.mem_cons_of_mem c hx))
      have hone : ∀ x ∈ ([] : GoString) ++ [c], x ≠ dash ∧ x ≠ equal := by
        intro x hx
        simp only [List.nil_append, List.mem_singleton] at hx
        subst hx
        exact hc
      have h1 : parseArg [dash, c] l p o = some ([dash, c], p, flushOpts l o) := by
        have := parseArg_short [] c [] l p o hone (Or.inl rfl)
        simpa [flags] using this
      have hR : run (separate (c :: c2 :: cs2) s ++ rest) l p o =
          run ((dash :: (c2 :: cs2) ++ s) :: rest) [dash, c] p (flushOpts l o) := by
        show run ([dash, c] :: (separate (c2 :: cs2) s ++ rest)) l p o = _
        rw [run_cons [dash, c] _ l p o (short_ne_terminator c [] hc.1) _ _ _ h1,
          ← ih1 [dash, c] p (flushOpts l o)]
      rw [hR,
        run_cons_bind (dash :: (c :: c2 :: cs2) ++ s) rest l p o
          (short_ne_terminator c (c2 :: cs2 ++ s) hc.1),
        run_cons_bind (dash :: (c2 :: cs2) ++ s) rest [dash, c] p (flushOpts l o)
          (short_ne_terminator c2 (cs2 ++ s) hc2),
        parseArg_combo_cons c c2 cs2 s l p o hcs hs]

theorem outputs_run_congr (xs ys : List GoString)
    (h : ∀ (l : GoString) (p : List GoString) (o : List Pair),
      outputs (run xs l p o) = outputs (run ys l p o)) :
    ∀ (pre : List GoString) (l : GoString) (p : List GoString) (o : List Pair),
      outputs (run (pre ++ xs) l p o) = outputs (run (pre ++ ys) l p o) := by
  intro pre
  induction pre with
  | nil => intro l p o; exact h l p o
  | cons x pre ih =>
    intro l p o
    simp only [List.cons_append, run, parseLoop]
    by_cases hx : x = str "--"
    · simp only [hx, if_true, Option.map_some']
      exact outputs_finish_args l _ _ p o
    · simp only [hx, if_false]
      cases parseArg x l p o with
      | none => rfl
      | some r =>
        obtain ⟨l1, p1, o1⟩ := r
        exact ih l1 p1 o1

/-- C5: combo-flag expansion is equivalent to separate tokens.  For every
non-empty `c1..cn` with no `ci` equal to `-` or `=`, every suffix `s` that is
empty or of the form `=value`, and all token sequences `pre` and `rest`,
parsing `pre ++ ["-c1..cn" ++ s] ++ rest` has the same outcome (the same
positionals and the same option pairs in the same order, or failure) as
parsing `pre ++ ["-c1", .., "-c(n-1)", "-cn" ++ s] ++ rest`. -/
theorem C5_combo_expansion (cs s : GoString) (pre rest : List GoString)
    (hne : cs ≠ []) (hcs : ∀ c ∈ cs, c ≠ dash ∧ c ≠ equal)
    (hs : s = [] ∨ ∃ v, s = equal :: v) :
    outputs (New (some (pre ++ [dash :: cs ++ s] ++ rest))).Parse =
      outputs (New (some (pre ++ separate cs s ++ rest))).Parse := by
  rw [Parse_eq_run, Parse_eq_run, List.append_assoc, List.append_assoc]
  apply outputs_run_congr
  intro l p o
  rw [List.singleton_append, run_combo s rest hs cs hne hcs l p o]

/-- Instance of C5: `--x -opqr=val rest` against `--x -o -p -q -r=val rest`. -/
theorem C5_combo_expansion_witness :
    outputs (New (some ([str "--x"] ++ [dash :: str "opqr" ++ str "=val"] ++
        [str "rest"]))).Parse =
      outputs (New (some ([str "--x"] ++ separate (str "opqr") (str "=val") ++
        [str "rest"]))).Parse ∧
    separate (str "opqr") (str "=val") = [str "-o", str "-p", str "-q", str "-r=val"] ∧
    outputs (New (some ([str "--x"] ++ [dash :: str "opqr" ++ str "=val"] ++
        [str "rest"]))).Parse =
      some ([str "rest"], [(str "--x", []), (str "-o", []), (str "-p", []),
        (str "-q", []), (str "-r", str "val")]) :=
  ⟨C5_combo_expansion (str "opqr") (str "=val") [str "--x"] [str "rest"]
      (by decide) (no_dash_equal_of_all _ (by decide)) (Or.inr ⟨str "val", by decide⟩),
    by decide, by decide⟩

theorem takeWhile_ne_cons (c b : Byte) (r : GoString) (hb : b ≠ c) :
    (b :: r).takeWhile (fun x => x ≠ c) = b :: r.takeWhile (fun x => x ≠ c) := by
  simp [List.takeWhile_cons, hb]

theorem dropWhile_ne_cons (c b : Byte) (r : GoString) (hb : b ≠ c) :
    (b :: r).dropWhile (fun x => x ≠ c) = r.dropWhile (fun x => x ≠ c) := by
  simp [List.dropWhile_cons, hb]

theorem split_first (c : Byte) :
    ∀ r : GoString, c ∈ r →
      ∃ n v, r = n ++ c :: v ∧ c ∉ n ∧
        r.takeWhile (fun b => b ≠ c) = n ∧ (r.dropWhile (fun b => b ≠ c)).drop 1 = v := by
  intro r
  induction r with
  | nil => intro h; simp at h
  | cons b r ih =>
    intro h
    by_cases hb : b = c
    · subst hb
      exact ⟨[], r, by simp, by simp, by simp, by simp⟩
    · have hr : c ∈ r := by
        rcases List.mem_cons.1 h with e | e
        · exact absurd e.symm hb
        · exact e
      obtain ⟨n, v, h1, h2, h3, h4⟩ := ih hr
      refine ⟨b :: n, v, by simp [h1], ?_, ?_, ?_⟩
      · simp only [List.mem_cons, not_or]
        exact ⟨fun e => hb e.symm, h2⟩
      · rw [takeWhile_ne_cons c b r hb, h3]
      · rw [dropWhile_ne_cons c b r hb, h4]

/-- C6: a long option with `=` splits on the first `=`.  For every token `t`
that starts with `--` and contains `=`, with name the part of `t` before its
first `=` and value everything after it, if parsing `rest` yields `(p, o)` then
parsing `t :: rest` yields positionals `p` and pairs `(name, value) :: o`. -/
theorem C6_long_option_equals (t : GoString) (rest : List GoString)
    (p : List GoString) (o : List Pair)
    (ht : str "--" <+: t) (he : equal ∈ t)
    (hr : outputs (New (some rest)).Parse = some (p, o)) :
    outputs (New (some (t :: rest))).Parse =
      some (p, (t.takeWhile (fun b => b ≠ equal),
                (t.dropWhile (fun b => b ≠ equal)).drop 1) :: o) := by
  rw [str_dashdash] at ht
  obtain ⟨r, hr0⟩ := ht
  subst hr0
  have hde : dash ≠ equal := by decide
  have her : equal ∈ r := by
    rcases List.mem_cons.1 he with e | e
    · exact absurd e.symm hde
    · rcases List.mem_cons.1 e with e | e
      · exact absurd e.symm hde
      · exact e
  obtain ⟨n, v, h1, h2, h3, h4⟩ := split_first equal r her
  have hterm : [dash, dash] ++ r ≠ str "--" := by
    rw [str_dashdash, h1]; simp
  have hname : ([dash, dash] ++ r).takeWhile (fun b => b ≠ equal) = dash :: dash :: n := by
    show (dash :: dash :: r).takeWhile (fun b => b ≠ equal) = dash :: dash :: n
    rw [takeWhile_ne_cons _ _ _ hde, takeWhile_ne_cons _ _ _ hde, h3]
  have hval : (([dash, dash] ++ r).dropWhile (fun b => b ≠ equal)).drop 1 = v := by
    show ((dash :: dash :: r).dropWhile (fun b => b ≠ equal)).drop 1 = v
    rw [dropWhile_ne_cons _ _ _ hde, dropWhile_ne_cons _ _ _ hde, h4]
  have harg : parseArg ([dash, dash] ++ r) [] [] [] =
      some ([], [], [(dash :: dash :: n, v)]) := by
    rw [h1]
    exact parseArg_long_eq n v [] [] h2
  have hstep : run (([dash, dash] ++ r) :: rest) [] [] [] =
      run rest [] [] [(dash :: dash :: n, v)] :=
    run_cons _ rest [] [] [] hterm [] [] _ harg
  rw [hname, hval]
  exact outputs_of_run _ rest [] [(dash :: dash :: n, v)] hstep p o hr

/-- Instance of C6: `--long=a=b next` splits on the first `=` only and
leaves `next` positional. -/
theorem C6_long_option_equals_witness :
    outputs (New (some [str "--long=a=b", str "next"])).Parse =
      some ([str "next"], [(str "--long", str "a=b")]) :=
  C6_long_option_equals (str "--long=a=b") [str "next"] [str "next"] []
    (by decide) (by decide) (by decide)

/-- C7 as stated fails when the value is empty: the token `-a=` emits
nothing and leaves `-a` pending, so in `-a= v` the token `v` becomes the value
of `-a` instead of a positional. -/
theorem C7_counterexample :
    str "-a=" = dash :: str "a" ++ equal :: str "" ∧
      outputs (New (some [str "v"])).Parse = some ([str "v"], []) ∧
      outputs (New (some [str "-a=", str "v"])).Parse = some ([], [(str "-a", str "v")]) ∧
      outputs (New (some [str "-a=", str "v"])).Parse ≠
        some ([str "v"], [(str "-a", str "")]) := by
  decide

/-- C7 (amended): a short option with a non-empty `=value` suffix is emitted
immediately.  For the token `-c1..cn=value` with `n ≥ 1`, no `ci` equal to `-`
or `=`, and `value` non-empty, if parsing `rest` yields `(p, o)` then parsing
the token followed by `rest` yields positionals `p` and pairs
`(-c1, ""), .., (-c(n-1), ""), (-cn, value)` followed by `o`. -/
theorem C7_short_equals (cs value : GoString) (rest : List GoString)
    (p : List GoString) (o : List Pair)
    (hne : cs ≠ []) (hcs : ∀ c ∈ cs, c ≠ dash ∧ c ≠ equal) (hv : value ≠ [])
    (hr : outputs (New (some rest)).Parse = some (p, o)) :
    outputs (New (some ((dash :: cs ++ equal :: value) :: rest))).Parse =
      some (p, flags cs.dropLast ++ [([dash, cs.getLast hne], value)] ++ o) := by
  have hsplit : cs = cs.dropLast ++ [cs.getLast hne] :=
    (List.dropLast_append_getLast hne).symm
  have hcs2 : ∀ c ∈ cs.dropLast ++ [cs.getLast hne], c ≠ dash ∧ c ≠ equal := by
    rw [← hsplit]; exact hcs
  have hlen : 2 ≤ (equal :: value).length := by
    cases value with
    | nil => exact absurd rfl hv
    | cons b r => simp
  have harg := parseArg_short cs.dropLast (cs.getLast hne) (equal :: value) [] [] []
    hcs2 (Or.inr ⟨value, rfl⟩)
  rw [← hsplit, if_pos hlen] at harg
  have hterm : dash :: cs ++ equal :: value ≠ str "--" := by
    rw [str_dashdash]
    intro e
    have := congrArg List.length e
    simp at this
    have hpos : 0 < cs.length := List.length_pos.2 hne
    omega
  have hstep := run_cons _ rest [] [] [] hterm _ _ _ harg
  simp only [flushOpts_nil, List.nil_append, List.drop_succ_cons, List.drop_zero] at hstep
  exact outputs_of_run _ rest [] _ hstep p o hr

/-- Instance of C7 on `-sho=rt with`. -/
theorem C7_short_equals_witness :
    outputs (New (some [str "-sho=rt", str "with"])).Parse =
      some ([str "with"], [(str "-s", []), (str "-h", []), (str "-o", str "rt")]) :=
  C7_short_equals (str "sho") (str "rt") [str "with"] [str "with"] []
    (by decide) (no_dash_equal_of_all _ (by decide)) (by decide) (by decide)

theorem outputs_run_terminator (ys : List GoString) :
    ∀ (xs : List GoString) (l : GoString) (p : List GoString) (o : List Pair),
      outputs (run (xs ++ str "--" :: ys) l p o) = outputs (run xs l p o) := by
  intro xs
  induction xs with
  | nil =>
    intro l p o
    simp only [List.nil_append, run, parseLoop, if_true, Option.map_some']
    exact outputs_finish_args l ys [] p o
  | cons x xs ih =>
    intro l p o
    simp only [List.cons_append, run, parseLoop]
    by_cases hx : x = str "--"
    · simp only [hx, if_true, Option.map_some']
      exact outputs_finish_args l _ _ p o
    · simp only [hx, if_false]
      cases parseArg x l p o with
      | none => rfl
      | some r =>
        obtain ⟨l1, p1, o1⟩ := r
        exact ih l1 p1 o1

/-- C8: the literal token `--` terminates parsing and is never classified.
For all `xs` and `ys`, parsing `xs ++ ["--"] ++ ys` yields the same outcome
(positionals and option pairs, or failure) as parsing `xs` alone. -/
theorem C8_terminator (xs ys : List GoString) :
    outputs (New (some (xs ++ [str "--"] ++ ys))).Parse = outputs (New (some xs)).Parse := by
  rw [Parse_eq_run, Parse_eq_run, List.append_assoc]
  exact outputs_run_terminator ys xs [] [] []

theorem outputs_run_filter :
    ∀ (xs : List GoString) (l : GoString) (p : List GoString) (o : List Pair),
      outputs (run xs l p o) = outputs (run (xs.filter (fun t => t ≠ [])) l p o) := by
  intro xs
  induction xs with
  | nil => intro l p o; rfl
  | cons x xs ih =>
    intro l p o
    by_cases hx : x = []
    · subst hx
      have hterm : ([] : GoString) ≠ str "--" := by decide
      rw [run_cons [] xs l p o hterm l p o (parseArg_empty l p o), ih l p o]
      simp
    · have hf : (x :: xs).filter (fun t => t ≠ []) = x :: xs.filter (fun t => t ≠ []) := by
        simp [hx]
      rw [hf]
      simp only [run, parseLoop]
      by_cases ht : x = str "--"
      · simp only [ht, if_true, Option.map_some']
        exact outputs_finish_args l _ _ p o
      · simp only [ht, if_false]
        cases parseArg x l p o with
        | none => rfl
        | some r =>
          obtain ⟨l1, p1, o1⟩ := r
          exact ih l1 p1 o1

/-- C9: empty tokens are transparent.  Parsing any input yields the same
outcome (positionals, option pairs, or failure) as parsing it with every
empty-string token removed; in particular `["--opt", "", "val"]` yields the
pair `("--opt", "val")`. -/
theorem C9_empty_tokens_transparent (xs : List GoString) :
    outputs (New (some xs)).Parse =
        outputs (New (some (xs.filter (fun t => t ≠ [])))).Parse ∧
      outputs (New (some [str "--opt", str "", str "val"])).Parse =
        some ([], [(str "--opt", str "val")]) := by
  constructor
  · rw [Parse_eq_run, Parse_eq_run]
    exact outputs_run_filter xs [] [] []
  · decide

/-- C10: a lone `-` after a pending option only flushes it.  For a
pending-capable option token `a`, if parsing `rest` yields `(p, o)` then
parsing `a :: "-" :: rest` yields positionals `p` and pairs `(a, "") :: o`. -/
theorem C10_lone_dash_flushes (a : GoString) (rest : List GoString)
    (p : List GoString) (o : List Pair) (ha : PendingCapable a)
    (hr : outputs (New (some rest)).Parse = some (p, o)) :
    outputs (New (some (a :: str "-" :: rest))).Parse = some (p, (a, []) :: o) := by
  have hterm : str "-" ≠ str "--" := by decide
  have harg : parseArg (str "-") a [] [] = some ([], [], [(a, [])]) := by
    rw [str_dash]
    exact parseArg_lone_dash a [] [] ha.ne_nil
  have hstep : run (a :: str "-" :: rest) [] [] [] = run rest [] [] [(a, [])] := by
    rw [run_pending ha, run_cons (str "-") rest a [] [] hterm [] [] _ harg]
  exact outputs_of_run _ rest [] [(a, [])] hstep p o hr

/-- Instance of C10 on the test-suite input `--with - skip --optarg`. -/
theorem C10_lone_dash_flushes_witness :
    outputs (New (some [str "--with", str "-", str "skip", str "--optarg"])).Parse =
      some ([str "skip"], [(str "--with", []), (str "--optarg", [])]) :=
  C10_lone_dash_flushes (str "--with") [str "skip", str "--optarg"] [str "skip"]
    [(str "--optarg", [])] (Or.inl ⟨by decide, by decide, by decide⟩) (by decide)


/-! ## Lemmas for the invariants and for safety -/

theorem mem_of_IndexByte_nonneg (c : Byte) :
    ∀ s : GoString, 0 ≤ IndexByte s c → c ∈ s := by
  intro s h
  by_contra hn
  rw [IndexByte_of_not_mem c s hn] at h
  omega

theorem IndexByte_split (c : Byte) (s : GoString) (h : ¬ IndexByte s c < 0) :
    ∃ n v, s = n ++ c :: v ∧ c ∉ n ∧ IndexByte s c = (n.length : Int) := by
  have hm : c ∈ s := mem_of_IndexByte_nonneg c s (by omega)
  obtain ⟨n, v, h1, h2, _, _⟩ := split_first c s hm
  refine ⟨n, v, h1, h2, ?_⟩
  rw [h1]
  exact IndexByte_append c v n h2

theorem not_mem_of_IndexByte_neg (c : Byte) (s : GoString) (h : IndexByte s c < 0) :
    c ∉ s := by
  intro hm
  obtain ⟨n, v, h1, h2, _, _⟩ := split_first c s hm
  rw [h1, IndexByte_append c v n h2] at h
  omega

theorem SplitN_two (s : GoString) (c : Byte) :
    SplitN s c 2 =
      if IndexByte s c < 0 then [s]
      else [s.take (IndexByte s c).toNat, s.drop ((IndexByte s c).toNat + 1)] := by
  simp [SplitN]

theorem comboLoop_some (arg : GoString) :
    ∀ (n i : Nat) (o : List Pair), i + n ≤ arg.length →
      ∃ o1, comboLoop arg (i : Int) n o = some o1 := by
  intro n
  induction n with
  | zero => intro i o _; exact ⟨o, rfl⟩
  | succ n ih =>
    intro i o h
    have hi : i < arg.length := by omega
    have hget : byteAt arg (i : Int) = some (arg.get ⟨i, hi⟩) := by
      rw [byteAt_nat]
      exact List.getElem?_eq_getElem hi
    simp only [comboLoop, hget]
    have hcast : ((i : Int) + 1) = ((i + 1 : Nat) : Int) := by omega
    rw [hcast]
    exact ih (i + 1) _ (by omega)

theorem comboLoop_names (arg : GoString) :
    ∀ (n : Nat) (i : Int) (o o1 : List Pair), comboLoop arg i n o = some o1 →
      ∃ ex, o1 = o ++ ex ∧ ∀ pr ∈ ex, WellFormedName pr.1 := by
  intro n
  induction n with
  | zero =>
    intro i o o1 h
    simp only [comboLoop, Option.some.injEq] at h
    exact ⟨[], by simp [h], by simp⟩
  | succ n ih =>
    intro i o o1 h
    simp only [comboLoop] at h
    cases hb : byteAt arg i with
    | none => rw [hb] at h; exact absurd h (by simp)
    | some c =>
      rw [hb] at h
      obtain ⟨ex, he, hw⟩ := ih (i + 1) _ o1 h
      refine ⟨([dash, c], []) :: ex, by simp [he], ?_⟩
      intro pr hpr
      rcases List.mem_cons.1 hpr with e | e
      · rw [e]; exact Or.inl ⟨c, rfl⟩
      · exact hw pr e

/-- The `switch` body on a short combo ending in a bare `-`: the flags are
expanded and the two-byte string `--` is left in `lastopt`. -/
theorem parseArg_combo_dash (cs : GoString) (p : List GoString) (o : List Pair)
    (hne : cs ≠ []) (hcs : ∀ c ∈ cs, c ≠ dash ∧ c ≠ equal) :
    parseArg (dash :: cs ++ [dash]) [] p o = some ([dash, dash], p, o ++ flags cs) := by
  have hd : (cs ++ [dash]).head? ≠ some dash := by
    cases cs with
    | nil => exact absurd rfl hne
    | cons b r =>
      have := (hcs b (by simp)).1
      simpa using this
  have hmem : equal ∉ dash :: (cs ++ [dash]) := by
    intro hm
    rcases List.mem_cons.1 hm with h | h
    · exact absurd h (by decide)
    · rcases List.mem_append.1 h with h | h
      · exact (hcs equal h).2 rfl
      · exact absurd (List.mem_singleton.1 h) (by decide)
  have hj : (if IndexByte (dash :: (cs ++ [dash]) ++ []) equal < 0
            then ((dash :: (cs ++ [dash]) ++ []).length : Int)
            else IndexByte (dash :: (cs ++ [dash]) ++ []) equal) = (cs.length : Int) + 2 := by
    rw [List.append_nil, IndexByte_of_not_mem equal _ hmem]
    simp
    omega
  have h := parseArg_short_core cs dash [] p o hd hj
  rw [List.append_nil] at h
  simpa using h

theorem parseArg_after_combo_dash (v : GoString) (p : List GoString) (o : List Pair)
    (hv : ¬ startsWithDash v) (hne : v ≠ []) :
    parseArg v [dash, dash] p o = some ([], p ++ [v], o) := by
  cases v with
  | nil => exact absurd rfl hne
  | cons b r =>
    have hb : b ≠ dash := by
      intro e; apply hv; simp [startsWithDash, e]
    simp [parseArg, byteAt, hb, str_dashdash]

theorem combo_dash_ne_terminator (cs : GoString) (hne : cs ≠ [])
    (hcs : ∀ c ∈ cs, c ≠ dash ∧ c ≠ equal) (s : GoString) :
    dash :: cs ++ s ≠ str "--" := by
  cases cs with
  | nil => exact absurd rfl hne
  | cons b r => exact short_ne_terminator b (r ++ s) (hcs b (by simp)).1

theorem take_IndexByte (c : Byte) (s : GoString) (h : ¬ IndexByte s c < 0) :
    ∃ n v, s = n ++ c :: v ∧ c ∉ n ∧ s.take (IndexByte s c).toNat = n := by
  obtain ⟨n, v, h1, h2, h3⟩ := IndexByte_split c s h
  refine ⟨n, v, h1, h2, ?_⟩
  rw [h3, Int.toNat_ofNat]
  subst h1
  simp

theorem wellFormed_long_name (r n v : GoString)
    (h1 : dash :: dash :: r = n ++ equal :: v) (h2 : equal ∉ n) : WellFormedName n := by
  have hde : dash ≠ equal := by decide
  right
  refine ⟨?_, h2⟩
  rw [str_dashdash]
  match n, h1 with
  | [], h1 =>
    simp only [List.nil_append, List.cons.injEq] at h1
    exact absurd h1.1 hde
  | [x], h1 =>
    simp only [List.singleton_append, List.cons.injEq] at h1
    exact absurd h1.2.1 hde
  | x :: y :: n1, h1 =>
    simp only [List.cons_append, List.cons.injEq] at h1
    rw [← h1.1, ← h1.2.1]
    exact ⟨n1, rfl⟩

/-- Effect of the `switch` body on an option token of length at least two
met with no option pending: positionals unchanged, only well-formed names
added, and `lastopt` empty or well formed. -/
theorem parseArg_option_shape (c : Byte) (r : GoString) (p : List GoString) (o : List Pair)
    (l1 : GoString) (p1 : List GoString) (o1 : List Pair)
    (h : parseArg (dash :: c :: r) [] p o = some (l1, p1, o1)) :
    p1 = p ∧ (∃ ex, o1 = o ++ ex ∧ ∀ pr ∈ ex, WellFormedName pr.1) ∧
      (l1 = [] ∨ WellFormedName l1) := by
  have h0 : byteAt (dash :: c :: r) 0 = some dash := by simp [byteAt]
  have hb1 : byteAt (dash :: c :: r) 1 = some c := by simp [byteAt]
  have hne : (dash :: c :: r).length ≠ 0 := by simp
  unfold parseArg at h
  simp only [hne, if_false, h0, if_true, List.length_nil, ne_eq, not_true_eq_false,
    false_and, hb1] at h
  by_cases hc : c = dash
  · subst hc
    simp only [if_true] at h
    rw [SplitN_two] at h
    by_cases hi : IndexByte (dash :: dash :: r) equal < 0
    · simp only [hi, if_true, Option.some.injEq, Prod.mk.injEq] at h
      obtain ⟨e1, e2, e3⟩ := h
      refine ⟨e2.symm, ⟨[], by simp [e3], by simp⟩, Or.inr (Or.inr ⟨?_, ?_⟩)⟩
      · rw [← e1, str_dashdash]; exact ⟨r, rfl⟩
      · rw [← e1]; exact not_mem_of_IndexByte_neg equal _ hi
    · obtain ⟨n, v, hs1, hs2, hs3⟩ := take_IndexByte equal (dash :: dash :: r) hi
      simp only [hi, if_false, hs3, Option.some.injEq, Prod.mk.injEq] at h
      obtain ⟨e1, e2, e3⟩ := h
      refine ⟨e2.symm, ⟨[(n, _)], e3.symm, ?_⟩, Or.inl e1.symm⟩
      intro pr hpr
      rw [List.mem_singleton.1 hpr]
      exact wellFormed_long_name r n v hs1 hs2
  · simp only [hc, if_false] at h
    generalize (if IndexByte (dash :: c :: r) equal < 0 then ((dash :: c :: r).length : Int)
      else IndexByte (dash :: c :: r) equal) = j at h
    cases hl : comboLoop (dash :: c :: r) 1 (j - 1 - 1).toNat o with
    | none => rw [hl] at h; exact absurd h (by simp)
    | some o2 =>
      rw [hl] at h
      obtain ⟨ex, hex, hw⟩ := comboLoop_names _ _ _ _ _ hl
      simp only at h
      cases hb : byteAt (dash :: c :: r) (j - 1) with
      | none => rw [hb] at h; exact absurd h (by simp)
      | some x =>
        rw [hb] at h
        simp only at h
        by_cases hlt : j < ((dash :: c :: r).length : Int) - 1
        · simp only [hlt, if_true] at h
          cases hs : sliceFrom (dash :: c :: r) (j + 1) with
          | none => rw [hs] at h; exact absurd h (by simp)
          | some value =>
            rw [hs] at h
            simp only [Option.some.injEq, Prod.mk.injEq] at h
            obtain ⟨e1, e2, e3⟩ := h
            refine ⟨e2.symm, ⟨ex ++ [([dash, x], value)], ?_, ?_⟩, Or.inl e1.symm⟩
            · rw [← e3, hex, List.append_assoc]
            · intro pr hpr
              rcases List.mem_append.1 hpr with e | e
              · exact hw pr e
              · rw [List.mem_singleton.1 e]; exact Or.inl ⟨x, rfl⟩
        · simp only [hlt, if_false, Option.some.injEq, Prod.mk.injEq] at h
          obtain ⟨e1, e2, e3⟩ := h
          exact ⟨e2.symm, ⟨ex, by rw [← e3, hex], hw⟩, Or.inr (e1 ▸ Or.inl ⟨x, rfl⟩)⟩


/-- Effect of the `switch` body on any token: at most the token itself is
appended to the positionals, and then it is non-empty and does not start with
`-`; every name appended to the option pairs is the pending `lastopt` or well
formed; the new `lastopt` is the old one, empty, or well formed. -/
theorem parseArg_shape (arg l : GoString) (p : List GoString) (o : List Pair)
    (l1 : GoString) (p1 : List GoString) (o1 : List Pair)
    (h : parseArg arg l p o = some (l1, p1, o1)) :
    (p1 = p ∨ (p1 = p ++ [arg] ∧ arg ≠ [] ∧ ¬ startsWithDash arg)) ∧
      (∃ ex, o1 = o ++ ex ∧ ∀ pr ∈ ex, (pr.1 = l ∧ l ≠ []) ∨ WellFormedName pr.1) ∧
      (l1 = l ∨ l1 = [] ∨ WellFormedName l1) := by
  have value_case : ∀ v : GoString, v ≠ [] → ¬ startsWithDash v →
      parseArg v l p o = some (l1, p1, o1) →
      (p1 = p ∨ (p1 = p ++ [v] ∧ v ≠ [] ∧ ¬ startsWithDash v)) ∧
      (∃ ex, o1 = o ++ ex ∧ ∀ pr ∈ ex, (pr.1 = l ∧ l ≠ []) ∨ WellFormedName pr.1) ∧
      (l1 = l ∨ l1 = [] ∨ WellFormedName l1) := by
    intro v hv hd h
    by_cases hl : l = []
    · subst hl
      rw [parseArg_positional v p o hd hv] at h
      simp only [Option.some.injEq, Prod.mk.injEq] at h
      obtain ⟨e1, e2, e3⟩ := h
      exact ⟨Or.inr ⟨e2.symm, hv, hd⟩, ⟨[], by simp [e3], by simp⟩, Or.inl e1.symm⟩
    · by_cases hl2 : l = str "--"
      · have hl3 : l = [dash, dash] := by rw [hl2, str_dashdash]
        rw [hl3, parseArg_after_combo_dash v p o hd hv] at h
        simp only [Option.some.injEq, Prod.mk.injEq] at h
        obtain ⟨e1, e2, e3⟩ := h
        exact ⟨Or.inr ⟨e2.symm, hv, hd⟩, ⟨[], by simp [e3], by simp⟩, Or.inr (Or.inl e1.symm)⟩
      · rw [parseArg_value v l p o hd hv hl hl2] at h
        simp only [Option.some.injEq, Prod.mk.injEq] at h
        obtain ⟨e1, e2, e3⟩ := h
        refine ⟨Or.inl e2.symm, ⟨[(l, v)], e3.symm, ?_⟩, Or.inr (Or.inl e1.symm)⟩
        intro pr hpr
        rw [List.mem_singleton.1 hpr]
        exact Or.inl ⟨rfl, hl⟩
  match arg, h with
  | [], h =>
    rw [parseArg_empty] at h
    simp only [Option.some.injEq, Prod.mk.injEq] at h
    obtain ⟨e1, e2, e3⟩ := h
    exact ⟨Or.inl e2.symm, ⟨[], by simp [e3], by simp⟩, Or.inl e1.symm⟩
  | [b], h =>
    by_cases hb : b = dash
    · subst hb
      by_cases hl : l = []
      · subst hl
        rw [parseArg_lone_dash_idle] at h
        exact absurd h (by simp)
      · rw [parseArg_lone_dash l p o hl] at h
        simp only [Option.some.injEq, Prod.mk.injEq] at h
        obtain ⟨e1, e2, e3⟩ := h
        refine ⟨Or.inl e2.symm, ⟨[(l, [])], e3.symm, ?_⟩, Or.inr (Or.inl e1.symm)⟩
        intro pr hpr
        rw [List.mem_singleton.1 hpr]
        exact Or.inl ⟨rfl, hl⟩
    · exact value_case [b] (by simp) (by simp [startsWithDash, hb]) h
  | b :: c :: r, h =>
    by_cases hb : b = dash
    · subst hb
      rw [parseArg_flush] at h
      obtain ⟨e2, ⟨ex, hex, hw⟩, e1⟩ := parseArg_option_shape c r p _ l1 p1 o1 h
      refine ⟨Or.inl e2, ?_, Or.inr e1⟩
      by_cases hl : l = []
      · subst hl
        rw [flushOpts_nil] at hex
        exact ⟨ex, hex, fun pr hpr => Or.inr (hw pr hpr)⟩
      · have hf : flushOpts l o = o ++ [(l, [])] := by
          have : l.length ≠ 0 := by simpa using hl
          simp [flushOpts, this]
        rw [hf, List.append_assoc] at hex
        refine ⟨[(l, [])] ++ ex, hex, ?_⟩
        intro pr hpr
        rcases List.mem_append.1 hpr with e | e
        · rw [List.mem_singleton.1 e]; exact Or.inl ⟨rfl, hl⟩
        · exact Or.inr (hw pr e)
    · exact value_case (b :: c :: r) (by simp) (by simp [startsWithDash, hb]) h

theorem WellFormedName.begins_with_dash {n : GoString} (h : WellFormedName n) :
    startsWithDash n := by
  rcases h with ⟨c, hc⟩ | ⟨hp, _⟩
  · rw [hc]; rfl
  · rw [str_dashdash] at hp
    obtain ⟨r, hr⟩ := hp
    rw [← hr]; rfl

theorem WellFormedName.name_nonempty {n : GoString} (h : WellFormedName n) : n ≠ [] := by
  intro e
  have := h.begins_with_dash
  rw [e] at this
  exact absurd this (by decide)

/-- Loop invariant of `parse`: `lastopt` is empty or a well-formed name, every
emitted name is well formed, and the positionals grow by a subsequence of the
consumed tokens whose members are non-empty and do not start with `-`. -/
theorem parseLoop_invariant :
    ∀ (xs : List GoString) (l : GoString) (p : List GoString) (o : List Pair)
      (l1 : GoString) (g : Argv), parseLoop xs l p o = some (l1, g) →
      (l = [] ∨ WellFormedName l) → (∀ pr ∈ o, WellFormedName pr.1) →
      ((l1 = [] ∨ WellFormedName l1) ∧ (∀ pr ∈ g.OptArgs, WellFormedName pr.1)) ∧
        ∃ q, g.PosArgs = p ++ q ∧ q.Sublist xs ∧
          ∀ t ∈ q, t ≠ [] ∧ ¬ startsWithDash t := by
  intro xs
  induction xs with
  | nil =>
    intro l p o l1 g h hl ho
    simp only [parseLoop, Option.some.injEq, Prod.mk.injEq] at h
    obtain ⟨e1, e2⟩ := h
    subst e1 e2
    exact ⟨⟨hl, ho⟩, [], by simp, List.Sublist.refl _, by simp⟩
  | cons x xs ih =>
    intro l p o l1 g h hl ho
    simp only [parseLoop] at h
    by_cases hx : x = str "--"
    · simp only [hx, if_true, Option.some.injEq, Prod.mk.injEq] at h
      obtain ⟨e1, e2⟩ := h
      subst e1 e2
      exact ⟨⟨hl, ho⟩, [], by simp, List.nil_sublist _, by simp⟩
    · simp only [hx, if_false] at h
      cases hs : parseArg x l p o with
      | none => rw [hs] at h; exact absurd h (by simp)
      | some res =>
        obtain ⟨l2, p2, o2⟩ := res
        rw [hs] at h
        simp only at h
        obtain ⟨hp2, ⟨ex, hex, hw⟩, hl2⟩ := parseArg_shape x l p o l2 p2 o2 hs
        have hl2w : l2 = [] ∨ WellFormedName l2 := by
          rcases hl2 with e | e | e
          · rw [e]; exact hl
          · exact Or.inl e
          · exact Or.inr e
        have ho2 : ∀ pr ∈ o2, WellFormedName pr.1 := by
          intro pr hpr
          rw [hex] at hpr
          rcases List.mem_append.1 hpr with e | e
          · exact ho pr e
          · rcases hw pr e with ⟨e1, e2⟩ | e1
            · rw [e1]
              rcases hl with hl | hl
              · exact absurd hl e2
              · exact hl
            · exact e1
        obtain ⟨hinv, q, hq1, hq2, hq3⟩ := ih l2 p2 o2 l1 g h hl2w ho2
        refine ⟨hinv, ?_⟩
        rcases hp2 with e | ⟨e, hxne, hxd⟩
        · rw [e] at hq1
          exact ⟨q, hq1, List.Sublist.cons x hq2, hq3⟩
        · rw [e, List.append_assoc] at hq1
          refine ⟨[x] ++ q, hq1, List.Sublist.cons₂ x hq2, ?_⟩
          intro t ht
          rcases List.mem_append.1 ht with e1 | e1
          · rw [List.mem_singleton.1 e1]; exact ⟨hxne, hxd⟩
          · exact hq3 t e1

/-- Invariants of a successful Parse of a fresh `Argv`. -/
theorem Parse_invariant (xs : List GoString) (g : Argv)
    (hp : (New (some xs)).Parse = some g) :
    (∀ pr ∈ g.OptArgs, WellFormedName pr.1) ∧ g.PosArgs.Sublist xs ∧
      ∀ t ∈ g.PosArgs, t ≠ [] ∧ ¬ startsWithDash t := by
  simp only [Argv.Parse, Argv.parse, New] at hp
  cases hl : parseLoop xs [] [] [] with
  | none => rw [hl] at hp; exact absurd hp (by simp)
  | some r =>
    obtain ⟨l1, g1⟩ := r
    rw [hl] at hp
    simp only at hp
    obtain ⟨⟨hl1, ho⟩, q, hq1, hq2, hq3⟩ :=
      parseLoop_invariant xs [] [] [] l1 g1 hl (Or.inl rfl) (by simp)
    rw [List.nil_append] at hq1
    by_cases hlen : l1.length = 0
    · simp only [hlen, ne_eq, not_true_eq_false, if_false, Option.some.injEq] at hp
      subst hp
      rw [hq1]
      exact ⟨ho, hq2, hq3⟩
    · simp only [hlen, ne_eq, not_false_eq_true, if_true, Option.some.injEq] at hp
      subst hp
      simp only
      rw [hq1]
      refine ⟨?_, hq2, hq3⟩
      intro pr hpr
      rcases List.mem_append.1 hpr with e | e
      · exact ho pr e
      · rw [List.mem_singleton.1 e]
        rcases hl1 with h1 | h1
        · rw [h1] at hlen; exact absurd rfl hlen
        · exact h1

/-- C11: option names are well formed.  For every input on which Parse
succeeds, every pair `(name, value)` in OptArgs has a name that begins with
`-`, and every name is either exactly two bytes `-c` or begins with `--` and
contains no `=`. -/
theorem C11_option_names_well_formed (xs : List GoString) (g : Argv)
    (hp : (New (some xs)).Parse = some g) :
    ∀ pr ∈ g.OptArgs, startsWithDash pr.1 ∧ WellFormedName pr.1 := by
  intro pr hpr
  have h := (Parse_invariant xs g hp).1 pr hpr
  exact ⟨h.begins_with_dash, h⟩

/-- Instance of C11 on `-ab=c=d --x=y=z --w -q-`, at the names `--x` (long
option split at the first `=`) and `--` (left by the combo `-q-`). -/
theorem C11_option_names_well_formed_witness :
    (startsWithDash (str "--x") ∧ WellFormedName (str "--x")) ∧
      (startsWithDash (str "--") ∧ WellFormedName (str "--")) :=
  ⟨C11_option_names_well_formed
      [str "-ab=c=d", str "--x=y=z", str "--w", str "-q-"]
      ⟨[], [], [(str "-a", []), (str "-b", str "c=d"), (str "--x", str "y=z"),
        (str "--w", []), (str "-q", []), (str "--", [])]⟩ (by decide)
      (str "--x", str "y=z") (by decide),
    C11_option_names_well_formed
      [str "-ab=c=d", str "--x=y=z", str "--w", str "-q-"]
      ⟨[], [], [(str "-a", []), (str "-b", str "c=d"), (str "--x", str "y=z"),
        (str "--w", []), (str "-q", []), (str "--", [])]⟩ (by decide)
      (str "--", []) (by decide)⟩

/-- C12: positionals preserve input order and are never option-like.  For
every input on which Parse succeeds, PosArgs is a subsequence of the input
token sequence, and every element of PosArgs is non-empty and does not start
with `-`. -/
theorem C12_positionals_subsequence (xs : List GoString) (g : Argv)
    (hp : (New (some xs)).Parse = some g) :
    g.PosArgs.Sublist xs ∧ ∀ t ∈ g.PosArgs, t ≠ [] ∧ ¬ startsWithDash t :=
  (Parse_invariant xs g hp).2

/-- Instance of C12 on the test-suite input `--long=args --with=equals and pos --args`. -/
theorem C12_positionals_subsequence_witness :
    ([str "and", str "pos"] : List GoString).Sublist
        [str "--long=args", str "--with=equals", str "and", str "pos", str "--args"] ∧
      (str "pos" ≠ [] ∧ ¬ startsWithDash (str "pos")) :=
  ⟨(C12_positionals_subsequence
      [str "--long=args", str "--with=equals", str "and", str "pos", str "--args"]
      ⟨[], [str "and", str "pos"],
        [(str "--long", str "args"), (str "--with", str "equals"), (str "--args", [])]⟩
      (by decide)).1,
    (C12_positionals_subsequence
      [str "--long=args", str "--with=equals", str "and", str "pos", str "--args"]
      ⟨[], [str "and", str "pos"],
        [(str "--long", str "args"), (str "--with", str "equals"), (str "--args", [])]⟩
      (by decide)).2 (str "pos") (by decide)⟩

/-- C13: empty input.  `New` applied to a nil argument list gives the same
`Argv` as `New` applied to the empty list, and parsing the empty list succeeds
with an empty positional sequence and an empty option-pair sequence. -/
theorem C13_empty_input :
    New none = New (some []) ∧
      (New none).Parse = (New (some [])).Parse ∧
      outputs (New (some [])).Parse = some ([], []) := by
  decide

/-- C14: a short combo ending in a bare `-` makes the next token positional.
For non-empty `c1..cn` with no `ci` equal to `-` or `=`, a non-empty token `t`
not starting with `-`, and every `rest`, if parsing `rest` yields `(p, o)` then
parsing `["-c1..cn-", t] ++ rest` yields positionals `t :: p` and pairs
`(-c1, ""), .., (-cn, "")` followed by `o`. -/
theorem C14_combo_dash_positional (cs t : GoString) (rest : List GoString)
    (p : List GoString) (o : List Pair)
    (hne : cs ≠ []) (hcs : ∀ c ∈ cs, c ≠ dash ∧ c ≠ equal)
    (ht : t ≠ []) (hd : ¬ startsWithDash t)
    (hr : outputs (New (some rest)).Parse = some (p, o)) :
    outputs (New (some ([dash :: cs ++ [dash], t] ++ rest))).Parse =
      some (t :: p, flags cs ++ o) := by
  have hterm : t ≠ str "--" := by
    intro e; apply hd; rw [e]; decide
  have hstep : run ([dash :: cs ++ [dash], t] ++ rest) [] [] [] =
      run rest [] [t] (flags cs) := by
    show run ((dash :: cs ++ [dash]) :: t :: rest) [] [] [] = _
    rw [run_cons _ (t :: rest) [] [] [] (combo_dash_ne_terminator cs hne hcs [dash]) _ _ _
        (parseArg_combo_dash cs [] [] hne hcs),
      run_cons t rest [dash, dash] [] _ hterm _ _ _
        (parseArg_after_combo_dash t [] _ hd ht)]
    rfl
  exact outputs_of_run _ rest [t] (flags cs) hstep p o hr

/-- Instance of C14 on the test-suite input `-w- ith --skip`. -/
theorem C14_combo_dash_positional_witness :
    outputs (New (some ([dash :: str "w" ++ [dash], str "ith"] ++ [str "--skip"]))).Parse =
      some ([str "ith"], [(str "-w", []), (str "--skip", [])]) ∧
    dash :: str "w" ++ [dash] = str "-w-" :=
  ⟨C14_combo_dash_positional (str "w") (str "ith") [str "--skip"] [] [(str "--skip", [])]
      (by decide) (no_dash_equal_of_all _ (by decide)) (by decide) (by decide) (by decide),
    by decide⟩

/-- C15: a short-option token that ends in `=` with nothing after it keeps
its last option pending.  For non-empty `c1..cn` with no `ci` equal to `-` or
`=`, a non-empty token `v` not starting with `-`, and every `rest`, if parsing
`rest` yields `(p, o)` then parsing `["-c1..cn=", v] ++ rest` yields
positionals `p` and pairs `(-c1, ""), .., (-c(n-1), ""), (-cn, v)` followed
by `o`. -/
theorem C15_trailing_equals_pending (cs v : GoString) (rest : List GoString)
    (p : List GoString) (o : List Pair)
    (hne : cs ≠ []) (hcs : ∀ c ∈ cs, c ≠ dash ∧ c ≠ equal)
    (hv : v ≠ []) (hd : ¬ startsWithDash v)
    (hr : outputs (New (some rest)).Parse = some (p, o)) :
    outputs (New (some ([dash :: cs ++ [equal], v] ++ rest))).Parse =
      some (p, flags cs.dropLast ++ [([dash, cs.getLast hne], v)] ++ o) := by
  have hsplit : cs = cs.dropLast ++ [cs.getLast hne] :=
    (List.dropLast_append_getLast hne).symm
  have hcs2 : ∀ c ∈ cs.dropLast ++ [cs.getLast hne], c ≠ dash ∧ c ≠ equal := by
    rw [← hsplit]; exact hcs
  have hlast : cs.getLast hne ≠ dash := (hcs _ (List.getLast_mem hne)).1
  have harg := parseArg_short cs.dropLast (cs.getLast hne) [equal] [] [] []
    hcs2 (Or.inr ⟨[], rfl⟩)
  have hlen : ¬ (2 ≤ ([equal] : GoString).length) := by simp
  rw [← hsplit, if_neg hlen, flushOpts_nil, List.nil_append] at harg
  have hterm : v ≠ str "--" := by
    intro e; apply hd; rw [e]; decide
  have hl2 : [dash, cs.getLast hne] ≠ str "--" := by
    rw [str_dashdash]
    intro e
    apply hlast
    simpa using e
  have hstep : run ([dash :: cs ++ [equal], v] ++ rest) [] [] [] =
      run rest [] [] (flags cs.dropLast ++ [([dash, cs.getLast hne], v)]) := by
    show run ((dash :: cs ++ [equal]) :: v :: rest) [] [] [] = _
    rw [run_cons _ (v :: rest) [] [] [] (combo_dash_ne_terminator cs hne hcs [equal]) _ _ _ harg,
      run_cons v rest [dash, cs.getLast hne] [] _ hterm _ _ _
        (parseArg_value v _ [] _ hd hv (by simp) hl2)]
  exact outputs_of_run _ rest [] _ hstep p o hr

/-- Instance of C15 on the test-suite input `-equal= s`. -/
theorem C15_trailing_equals_pending_witness :
    outputs (New (some ([dash :: str "equal" ++ [equal], str "s"] ++ []))).Parse =
      some ([], [(str "-e", []), (str "-q", []), (str "-u", []), (str "-a", []),
        (str "-l", str "s")]) ∧
    dash :: str "equal" ++ [equal] = str "-equal=" :=
  ⟨C15_trailing_equals_pending (str "equal") (str "s") [] [] []
      (by decide) (no_dash_equal_of_all _ (by decide)) (by decide) (by decide) (by decide),
    by decide⟩

theorem IndexByte_cons_ne (b c : Byte) (s : GoString) (h : b ≠ c) :
    IndexByte (b :: s) c < 0 ∨
      (1 ≤ IndexByte (b :: s) c ∧ IndexByte (b :: s) c < ((b :: s).length : Int)) := by
  by_cases hn : IndexByte (b :: s) c < 0
  · exact Or.inl hn
  · right
    obtain ⟨n, v, h1, h2, h3⟩ := IndexByte_split c (b :: s) hn
    have hlen := congrArg List.length h1
    simp only [List.length_cons, List.length_append] at hlen
    cases n with
    | nil =>
      simp only [List.nil_append, List.cons.injEq] at h1
      exact absurd h1.1 h
    | cons x n =>
      rw [h3]
      simp only [List.length_cons] at hlen ⊢
      omega

/-- The short-option branch of the `switch` body never indexes out of range. -/
theorem parseArg_short_some (c : Byte) (r : GoString) (p : List GoString) (o : List Pair)
    (hc : c ≠ dash) : ∃ res, parseArg (dash :: c :: r) [] p o = some res := by
  have h0 : byteAt (dash :: c :: r) 0 = some dash := by simp [byteAt]
  have h1 : byteAt (dash :: c :: r) 1 = some c := by simp [byteAt]
  have hne : (dash :: c :: r).length ≠ 0 := by simp
  have hlen : ((dash :: c :: r).length : Int) = (r.length : Int) + 2 := by
    simp only [List.length_cons]; omega
  have hj : ∃ j : Nat, (if IndexByte (dash :: c :: r) equal < 0
      then ((dash :: c :: r).length : Int) else IndexByte (dash :: c :: r) equal) = (j : Int) ∧
      1 ≤ j ∧ j ≤ r.length + 2 := by
    rcases IndexByte_cons_ne dash equal (c :: r) (by decide) with h | ⟨ha, hb⟩
    · refine ⟨r.length + 2, ?_, by omega, by omega⟩
      rw [if_pos h, hlen]; omega
    · have hn : ¬ IndexByte (dash :: c :: r) equal < 0 := by omega
      refine ⟨(IndexByte (dash :: c :: r) equal).toNat, ?_, by omega, by omega⟩
      rw [if_neg hn]; omega
  obtain ⟨j, hjeq, hj1, hj2⟩ := hj
  have hcnt : 1 + ((j : Int) - 1 - 1).toNat ≤ (dash :: c :: r).length := by
    simp only [List.length_cons]; omega
  obtain ⟨o1, ho1⟩ := comboLoop_some (dash :: c :: r) ((j : Int) - 1 - 1).toNat 1 o hcnt
  have hjl : j - 1 < (dash :: c :: r).length := by
    simp only [List.length_cons]; omega
  have hlast : byteAt (dash :: c :: r) ((j : Int) - 1) =
      some ((dash :: c :: r).get ⟨j - 1, hjl⟩) := by
    have e : ((j : Int) - 1) = ((j - 1 : Nat) : Int) := by omega
    rw [e, byteAt_nat]
    exact List.getElem?_eq_getElem hjl
  unfold parseArg
  simp only [hne, if_false, h0, if_true, List.length_nil, ne_eq, not_true_eq_false,
    false_and, h1, hc, hjeq]
  simp only [Nat.cast_one] at ho1
  rw [ho1, hlast]
  simp only
  by_cases hlt : (j : Int) < ((dash :: c :: r).length : Int) - 1
  · have hs : ¬ ((j : Int) + 1 < 0 ∨ ((dash :: c :: r).length : Int) < (j : Int) + 1) := by
      omega
    simp only [hlt, if_true, sliceFrom, hs, if_false]
    exact ⟨_, rfl⟩
  · simp only [hlt, if_false]
    exact ⟨_, rfl⟩

/-- The `switch` body fails only on the token `-` met with no option pending. -/
theorem parseArg_some (arg l : GoString) (p : List GoString) (o : List Pair)
    (h : arg ≠ [dash] ∨ l ≠ []) : ∃ res, parseArg arg l p o = some res := by
  match arg, h with
  | [], _ => exact ⟨_, parseArg_empty l p o⟩
  | [b], h =>
    by_cases hb : b = dash
    · subst hb
      have hl : l ≠ [] := by
        rcases h with h | h
        · exact absurd rfl h
        · exact h
      exact ⟨_, parseArg_lone_dash l p o hl⟩
    · simp only [parseArg, byteAt]
      simp [hb]
      split_ifs <;> simp
  | b :: c :: r, _ =>
    by_cases hb : b = dash
    · subst hb
      rw [parseArg_flush]
      by_cases hc : c = dash
      · subst hc
        simp only [parseArg, byteAt]
        simp
        split <;> simp
      · exact parseArg_short_some c r p _ hc
    · simp only [parseArg, byteAt]
      simp [hb]
      split_ifs <;> simp

theorem parseLoop_some :
    ∀ (xs : List GoString) (l : GoString) (p : List GoString) (o : List Pair),
      (∀ t ∈ xs, t ≠ str "-") → ∃ res, parseLoop xs l p o = some res := by
  intro xs
  induction xs with
  | nil => intro l p o _; exact ⟨_, rfl⟩
  | cons x xs ih =>
    intro l p o h
    simp only [parseLoop]
    by_cases hx : x = str "--"
    · simp only [hx, if_true]
      exact ⟨_, rfl⟩
    · simp only [hx, if_false]
      have hd : x ≠ [dash] := by
        have := h x (by simp)
        rwa [str_dash] at this
      obtain ⟨⟨l1, p1, o1⟩, hres⟩ := parseArg_some x l p o (Or.inl hd)
      rw [hres]
      exact ih l1 p1 o1 (fun t ht => h t (by simp [ht]))

/-- C16: conditional safety.  For every input sequence in which no token is
exactly the one-byte string `-`, Parse completes: no index expression of
`parse` is out of range. -/
theorem C16_safe_without_lone_dash (xs : List GoString)
    (h : ∀ t ∈ xs, t ≠ str "-") : ∃ g, (New (some xs)).Parse = some g := by
  obtain ⟨⟨l, g⟩, hres⟩ := parseLoop_some xs [] [] [] h
  simp only [Argv.Parse, Argv.parse, New, hres]
  split <;> exact ⟨_, rfl⟩

/-- Instance of C16 on tokens made of dashes and `=` only. -/
theorem C16_safe_without_lone_dash_witness :
    ∃ g, (New (some [str "", str "---", str "-=", str "--=", str "-=-", str "="])).Parse =
      some g :=
  C16_safe_without_lone_dash [str "", str "---", str "-=", str "--=", str "-=-", str "="]
    (by decide)

theorem parseLoop_args_nil :
    ∀ (xs : List GoString) (l : GoString) (p : List GoString) (o : List Pair)
      (l1 : GoString) (g : Argv), (∀ t ∈ xs, t ≠ str "--") →
      parseLoop xs l p o = some (l1, g) → g.args = [] := by
  intro xs
  induction xs with
  | nil =>
    intro l p o l1 g _ h
    simp only [parseLoop, Option.some.injEq, Prod.mk.injEq] at h
    rw [← h.2]
  | cons x xs ih =>
    intro l p o l1 g hx h
    have hne : x ≠ str "--" := hx x (by simp)
    simp only [parseLoop, hne, if_false] at h
    cases hs : parseArg x l p o with
    | none => rw [hs] at h; exact absurd h (by simp)
    | some r =>
      obtain ⟨l2, p2, o2⟩ := r
      rw [hs] at h
      exact ih l2 p2 o2 l1 g (fun t ht => hx t (by simp [ht])) h

theorem Parse_exhausted (g : Argv) (h : g.args = []) : g.Parse = some g := by
  obtain ⟨args, pos, opts⟩ := g
  simp only at h
  subst h
  simp [Argv.Parse, Argv.parse, parseLoop]

/-- C17: re-parsing is a no-op once the input is exhausted.  For every input
that contains no token equal to `--` and on which Parse succeeds with result
`g`, the unparsed list `g.args` is empty and a second Parse of `g` succeeds and
returns `g` unchanged. -/
theorem C17_reparse_noop (xs : List GoString) (g : Argv)
    (hx : ∀ t ∈ xs, t ≠ str "--") (hp : (New (some xs)).Parse = some g) :
    g.args = [] ∧ g.Parse = some g ∧
      ((New (some xs)).Parse.bind Argv.Parse) = (New (some xs)).Parse := by
  have hargs : g.args = [] := by
    simp only [Argv.Parse, Argv.parse, New] at hp
    cases hl : parseLoop xs [] [] [] with
    | none => rw [hl] at hp; exact absurd hp (by simp)
    | some r =>
      obtain ⟨l1, g1⟩ := r
      rw [hl] at hp
      have h1 := parseLoop_args_nil xs [] [] [] l1 g1 hx hl
      simp only at hp
      split at hp
      · rw [← Option.some.inj hp]; exact h1
      · rw [← Option.some.inj hp]; exact h1
  refine ⟨hargs, Parse_exhausted g hargs, ?_⟩
  rw [hp]
  exact Parse_exhausted g hargs

/-- Instance of C17 on the test-suite input `--long options --only`. -/
theorem C17_reparse_noop_witness :
    (⟨[], [], [(str "--long", str "options"), (str "--only", [])]⟩ : Argv).args = [] ∧
      (⟨[], [], [(str "--long", str "options"), (str "--only", [])]⟩ : Argv).Parse =
        some ⟨[], [], [(str "--long", str "options"), (str "--only", [])]⟩ ∧
      ((New (some [str "--long", str "options", str "--only"])).Parse.bind Argv.Parse) =
        (New (some [str "--long", str "options", str "--only"])).Parse :=
  C17_reparse_noop [str "--long", str "options", str "--only"]
    ⟨[], [], [(str "--long", str "options"), (str "--only", [])]⟩ (by decide) (by decide)

/-- C18: a short combo ending in `-` that is not followed by a value token
emits a pair named `--`.  For non-empty `c1..cn` with no `ci` equal to `-` or
`=`, parsing the single-token input `["-c1..cn-"]` yields no positionals and
the pairs `(-c1, ""), .., (-cn, ""), ("--", "")`. -/
theorem C18_combo_dash_alone (cs : GoString)
    (hne : cs ≠ []) (hcs : ∀ c ∈ cs, c ≠ dash ∧ c ≠ equal) :
    outputs (New (some [dash :: cs ++ [dash]])).Parse =
      some ([], flags cs ++ [(str "--", [])]) := by
  rw [Parse_eq_run,
    run_cons _ [] [] [] [] (combo_dash_ne_terminator cs hne hcs [dash]) _ _ _
      (parseArg_combo_dash cs [] [] hne hcs)]
  simp [run, parseLoop, finish, outputs, str_dashdash]

/-- Instance of C18 on the token `-pqr-`. -/
theorem C18_combo_dash_alone_witness :
    outputs (New (some [dash :: str "pqr" ++ [dash]])).Parse =
      some ([], [(str "-p", []), (str "-q", []), (str "-r", []), (str "--", [])]) ∧
    dash :: str "pqr" ++ [dash] = str "-pqr-" :=
  ⟨C18_combo_dash_alone (str "pqr") (by decide) (no_dash_equal_of_all _ (by decide)),
    by decide⟩

end argv
